import Mathlib

/-!
# Wiki Bubbles — verification of the Incremental Graph Engine

A shallow embedding of the graph-building core of the `wiki-bubbles`
repository: the graph store operations found in `App.tsx`
(`loadGraphData` = seed, `handleExpandNode` = expand,
`toggleLang` = relabel, `reset` = clear), the snapshot copy and the
physics constants of `ForceGraph.tsx` (`initGraph`), and the batched
translation fetcher `getBatchTranslations` of `wikiService.ts`.

Nodes and links are modelled exactly as the TypeScript data at rest:
a node is `{ id, val }` plus the optional simulation fields of
`d3.SimulationNodeDatum` (`x`, `y`, `vx`, `vy`, `fx`, `fy`, `index`),
a link is a pair of string identifiers.  Coordinates are opaque values
here (no arithmetic is ever done on them in the store), represented by
`Int`.
-/

/-- `GraphNode` of `types.ts`: `id` and `val` plus the optional
simulation datum fields that d3 may populate on working copies. -/
structure GraphNode where
  id : String
  val : Nat
  x : Option Int := none
  y : Option Int := none
  vx : Option Int := none
  vy : Option Int := none
  fx : Option Int := none
  fy : Option Int := none
  idx : Option Nat := none
deriving Repr, DecidableEq

/-- `GraphLink` of `types.ts` at rest: `source` and `target` are the two
string identifiers (the store never holds resolved object references;
d3 only mutates the simulator's copies). -/
structure GraphLink where
  source : String
  target : String
deriving Repr, DecidableEq

/-- `GraphData` of `types.ts`. -/
structure GraphData where
  nodes : List GraphNode
  links : List GraphLink
deriving Repr, DecidableEq

/-- The node-id set of a graph, as the list of ids. -/
def GraphData.nodeIds (g : GraphData) : List String :=
  g.nodes.map (fun n => n.id)

/-- Graph construction performed by `loadGraphData` in `App.tsx`:
`newNodes = [{id: title, val: 2}, ...links.map(l => ({id: l, val: 1}))]`,
`newLinks = links.map(l => ({source: title, target: l}))`. -/
def loadGraphData (title : String) (links : List String) : GraphData :=
  { nodes := { id := title, val := 2 } :: links.map (fun l => { id := l, val := 1 })
    links := links.map (fun l => { source := title, target := l }) }

/-- The link key used by `handleExpandNode`:
the template string `${source}-${target}`. -/
def linkKey (l : GraphLink) : String :=
  l.source ++ "-" ++ l.target

/-- The `setGraphData` updater body of `handleExpandNode` in `App.tsx`,
with `fromId = selectedNode.id` and `newLinksData` the freshly fetched
titles.  Each `Set` lookup of the source is list membership here. -/
def handleExpandNode (fromId : String) (newLinksData : List String)
    (prevData : GraphData) : GraphData :=
  let existingNodeIds := prevData.nodes.map (fun n => n.id)
  let existingLinkKeys := prevData.links.map linkKey
  let nodesToAdd : List GraphNode :=
    (newLinksData.filter (fun i => !(existingNodeIds.contains i))).map
      (fun i => { id := i, val := 1 })
  let linksToAdd : List GraphLink :=
    (newLinksData.map (fun targetId => { source := fromId, target := targetId })).filter
      (fun l => !(existingLinkKeys.contains (linkKey l)))
  let safeNodesToAdd := nodesToAdd
  let safeLinksToAdd := linksToAdd.filter
    (fun l => safeNodesToAdd.any (fun n => n.id == l.target)
      || existingNodeIds.contains l.target)
  if safeNodesToAdd.length = 0 then prevData
  else { nodes := prevData.nodes ++ safeNodesToAdd
         links := prevData.links ++ safeLinksToAdd }

/-- `translationMap[id] || id` for an association-list record: the
original id is kept when the record has no entry (or a falsy, i.e.
empty, translation). -/
def applyRecord (m : List (String × String)) (x : String) : String :=
  match m.find? (fun p => p.1 == x) with
  | some p => if p.2 = "" then x else p.2
  | none => x

/-- The graph transformation performed by `toggleLang` in `App.tsx` on a
successful batch translation: every node id and every link endpoint is
substituted through the translation record (falling back to the original
id), and `x`, `y`, `vx`, `vy`, `index` are set to `undefined` on nodes. -/
def toggleLangGraph (translationMap : List (String × String))
    (g : GraphData) : GraphData :=
  { nodes := g.nodes.map (fun n =>
      { n with id := applyRecord translationMap n.id
               x := none, y := none, vx := none, vy := none, idx := none })
    links := g.links.map (fun l =>
      { source := applyRecord translationMap l.source
        target := applyRecord translationMap l.target }) }

/-- `reset` in `App.tsx`: `setGraphData({ nodes: [], links: [] })`. -/
def resetGraph : GraphData := { nodes := [], links := [] }

/-- The snapshot copy taken by `initGraph` in `ForceGraph.tsx`:
`const nodes = data.nodes.map(d => ({ ...d }))` — a per-object shallow
copy of the store's nodes, which is the identity on field values. -/
def initGraphNodes (data : GraphData) : List GraphNode :=
  data.nodes.map (fun d => { d with })

/-- `dynamicLinkDistance` of `initGraph`:
`Math.min(600, 100 + (nodeCount * 0.8))`. -/
def dynamicLinkDistance (nodeCount : ℕ) : ℚ :=
  min 600 (100 + (nodeCount : ℚ) * (8 / 10))

/-- `dynamicChargeStrength` of `initGraph`:
`Math.max(-2000, -300 - (nodeCount * 3))`. -/
def dynamicChargeStrength (nodeCount : ℕ) : ℚ :=
  max (-2000) (-300 - (nodeCount : ℚ) * 3)

/-- `clamp(lo, hi, x)` as used by the specification's formulas. -/
def clampQ (lo hi x : ℚ) : ℚ :=
  max lo (min hi x)

/-! ## C1 — seed shape -/

/-- C1 counterexample: `seed("A", ["B","B"])` creates two separate nodes
with id `"B"` (3 nodes in total) and two identical links, contradicting
the claim that a title appearing twice in `linkedTitles` yields only one
node. -/
theorem loadGraphData_dup_title_cex :
    (loadGraphData "A" ["B", "B"]).nodes.length = 3 ∧
    ((loadGraphData "A" ["B", "B"]).nodes.filter (fun n => n.id == "B")).length = 2 := by
  decide

/-- C1 amended: `seed(rootTitle, linkedTitles)` produces a graph whose
first node is the root with weight 2, plus one weight-1 node entry per
element of `linkedTitles` (a title occurring `k` times yields `k` node
entries — there is no deduplication), and one directed link from the
root per element; an empty list yields a single-node graph. -/
theorem loadGraphData_shape (r t : String) (ls : List String) :
    (loadGraphData r ls).nodes.length = ls.length + 1 ∧
    (loadGraphData r ls).links.length = ls.length ∧
    (loadGraphData r ls).nodes.map (fun n => n.val) = 2 :: List.replicate ls.length 1 ∧
    (loadGraphData r ls).links = ls.map (fun l => { source := r, target := l }) ∧
    ((loadGraphData r ls).nodes.filter (fun n => n.id == t)).length
      = (if r = t then 1 else 0) + ls.count t := by
  have hvals : (loadGraphData r ls).nodes.map (fun n => n.val)
      = 2 :: List.replicate ls.length 1 := by
    simp only [loadGraphData, List.map_cons, List.map_map]
    congr 1
    induction ls with
    | nil => rfl
    | cons a l ih => simp only [List.map_cons, List.length_cons, List.replicate_succ, ih]; rfl
  refine ⟨by simp [loadGraphData], by simp [loadGraphData], hvals,
    by simp [loadGraphData], ?_⟩
  simp only [loadGraphData, List.filter_cons]
  have hmap : ((ls.map (fun l => ({ id := l, val := 1 } : GraphNode))).filter
      (fun n => n.id == t)).length = ls.count t := by
    rw [List.filter_map, List.length_map, List.count, List.countP_eq_length_filter]
    rfl
  by_cases h : r = t
  · simp [h, hmap, Nat.add_comm]
  · simp [h, hmap]

/-! ## C8 — physics clamp bounds -/

/-- C8: for every node count `N`, the computed link rest distance equals
`clamp(100 + 0.8·N, 100, 600)` and lies in `[100, 600]`, and the computed
charge strength equals `clamp(-300 - 3·N, -2000, -300)` and lies in
`[-2000, -300]`. -/
theorem physics_constants_clamped (N : ℕ) :
    dynamicLinkDistance N = clampQ 100 600 (100 + 0.8 * N) ∧
    100 ≤ dynamicLinkDistance N ∧ dynamicLinkDistance N ≤ 600 ∧
    dynamicChargeStrength N = clampQ (-2000) (-300) (-300 - 3 * N) ∧
    -2000 ≤ dynamicChargeStrength N ∧ dynamicChargeStrength N ≤ -300 := by
  have hN : (0 : ℚ) ≤ (N : ℚ) := Nat.cast_nonneg N
  have harg : (100 : ℚ) + 0.8 * N = 100 + (N : ℚ) * (8 / 10) := by ring
  have hlow : (100 : ℚ) ≤ min 600 (100 + (N : ℚ) * (8 / 10)) := by
    refine le_min (by norm_num) ?_
    nlinarith
  have hdist : dynamicLinkDistance N = clampQ 100 600 (100 + 0.8 * N) := by
    rw [clampQ, harg, max_eq_right hlow]
    rfl
  have hchargearg : (-300 : ℚ) - 3 * N = -300 - (N : ℚ) * 3 := by ring
  have hmin : min (-300 : ℚ) (-300 - (N : ℚ) * 3) = -300 - (N : ℚ) * 3 := by
    refine min_eq_right ?_
    nlinarith
  have hch : dynamicChargeStrength N = clampQ (-2000) (-300) (-300 - 3 * N) := by
    rw [clampQ, hchargearg, hmin]
    rfl
  refine ⟨hdist, ?_, ?_, hch, ?_, ?_⟩
  · rw [dynamicLinkDistance]
    exact hlow
  · exact min_le_left _ _
  · exact le_max_left _ _
  · refine max_le (by norm_num) ?_
    nlinarith

/-! ## C10 — link-key collision on ids containing "-" -/

/-- A concrete graph whose node ids contain the character `-`, with an
existing link `("a-b","c")`. -/
def dashGraph : GraphData :=
  { nodes := [{ id := "a", val := 1 }, { id := "a-b", val := 1 },
              { id := "b-c", val := 1 }, { id := "c", val := 1 }]
    links := [{ source := "a-b", target := "c" }] }

/-- C10: `handleExpandNode` keys links by the concatenation
`source ++ "-" ++ target`, so the distinct pairs `("a","b-c")` and
`("a-b","c")` share one key; expanding `"a"` with `["b-c","x"]` on
`dashGraph` therefore drops the genuinely new link `("a","b-c")`
(both of whose endpoints are present) while the expand itself is not a
no-op (it adds the link `("a","x")`). -/
theorem expand_dash_key_collision :
    linkKey { source := "a", target := "b-c" } = linkKey { source := "a-b", target := "c" } ∧
    ({ source := "a", target := "b-c" } : GraphLink) ∉ dashGraph.links ∧
    "a" ∈ dashGraph.nodeIds ∧ "b-c" ∈ dashGraph.nodeIds ∧
    ({ source := "a", target := "b-c" } : GraphLink)
      ∉ (handleExpandNode "a" ["b-c", "x"] dashGraph).links ∧
    ({ source := "a", target := "x" } : GraphLink)
      ∈ (handleExpandNode "a" ["b-c", "x"] dashGraph).links := by
  decide

/-! ## C5, C6 — expand as a no-op and idempotency -/

/-- Helper: when the filter computing `nodesToAdd` is empty (every fetched
title is already a node id), `handleExpandNode` returns `prevData`. -/
theorem handleExpandNode_eq_of_no_new (f : String) (ls : List String) (g : GraphData)
    (h : ls.filter (fun i => !((g.nodes.map (fun n => n.id)).contains i)) = []) :
    handleExpandNode f ls g = g := by
  simp only [handleExpandNode, h]
  simp

/-- Helper: when the filter computing `nodesToAdd` is nonempty, the node
list of the expanded graph is the old one followed by one fresh weight-1
node per genuinely new title. -/
theorem handleExpandNode_nodes_of_new (f : String) (ls : List String) (g : GraphData)
    (h : ¬ ls.filter (fun i => !((g.nodes.map (fun n => n.id)).contains i)) = []) :
    (handleExpandNode f ls g).nodes
      = g.nodes ++ (ls.filter (fun i => !((g.nodes.map (fun n => n.id)).contains i))).map
          (fun i => { id := i, val := 1 }) := by
  have hlen : ¬ (((ls.filter (fun i => !((g.nodes.map (fun n => n.id)).contains i))).map
      (fun i => ({ id := i, val := 1 } : GraphNode))).length = 0) := by
    simpa [List.length_eq_zero, List.map_eq_nil_iff] using h
  simp only [handleExpandNode]
  rw [if_neg hlen]

/-- C6: an `expand` whose computed set of genuinely new nodes is empty
(every fetched title already names a node) leaves the graph unchanged —
a no-op, not an error. -/
theorem expand_no_new_nodes_noop (f : String) (ls : List String) (g : GraphData)
    (h : ls.filter (fun i => !((g.nodes.map (fun n => n.id)).contains i)) = []) :
    handleExpandNode f ls g = g :=
  handleExpandNode_eq_of_no_new f ls g h

/-- The seed of §8's scenarios:
`seed("Albert Einstein", ["Physics","Nobel Prize","Germany"])`. -/
def einsteinGraph : GraphData :=
  loadGraphData "Albert Einstein" ["Physics", "Nobel Prize", "Germany"]

/-- C6 witness: expanding the already-present node `"Nobel Prize"` from
`"Physics"` on the Einstein seed is a no-op. -/
theorem expand_no_new_nodes_noop_witness :
    (["Nobel Prize"].filter
      (fun i => !((einsteinGraph.nodes.map (fun n => n.id)).contains i)) = []) ∧
    handleExpandNode "Physics" ["Nobel Prize"] einsteinGraph = einsteinGraph :=
  ⟨by decide, expand_no_new_nodes_noop "Physics" ["Nobel Prize"] einsteinGraph (by decide)⟩

/-- C5: `expand(fromId, links)` applied twice with the identical argument
list yields the same graph as applying it once. -/
theorem expand_idempotent (f : String) (ls : List String) (g : GraphData) :
    handleExpandNode f ls (handleExpandNode f ls g) = handleExpandNode f ls g := by
  by_cases h : ls.filter (fun i => !((g.nodes.map (fun n => n.id)).contains i)) = []
  · rw [handleExpandNode_eq_of_no_new f ls g h, handleExpandNode_eq_of_no_new f ls g h]
  · have hg' := handleExpandNode_nodes_of_new f ls g h
    refine handleExpandNode_eq_of_no_new f ls (handleExpandNode f ls g) ?_
    rw [List.filter_eq_nil_iff]
    intro t ht
    have hmem : t ∈ (handleExpandNode f ls g).nodes.map (fun n => n.id) := by
      rw [hg', List.map_append, List.mem_append]
      by_cases hm : t ∈ g.nodes.map (fun n => n.id)
      · exact Or.inl hm
      · refine Or.inr ?_
        have htf : t ∈ ls.filter (fun i => !((g.nodes.map (fun n => n.id)).contains i)) := by
          rw [List.mem_filter]
          exact ⟨ht, by simp [hm]⟩
        exact List.mem_map.mpr ⟨{ id := t, val := 1 },
          List.mem_map.mpr ⟨t, htf, rfl⟩, rfl⟩
    simp [hmem]

/-! ## C3 — relabel under colliding translations -/

/-- A seeded-shape graph with two linked nodes that will collide under
translation. -/
def mergeGraph : GraphData :=
  { nodes := [{ id := "A", val := 2 }, { id := "B", val := 1 }, { id := "C", val := 1 }]
    links := [{ source := "A", target := "B" }, { source := "A", target := "C" }] }

/-- A translation record mapping the two distinct ids `"B"` and `"C"`
to the same id `"X"`. -/
def mergeMap : List (String × String) := [("B", "X"), ("C", "X")]

/-- C3 counterexample: translating `mergeGraph` through `mergeMap` leaves
TWO node entries with id `"X"` and TWO identical `("A","X")` links —
`toggleLang` performs no merging, contradicting the claim that exactly
one node remains and duplicate links are collapsed. -/
theorem toggleLang_no_merge_cex :
    ((toggleLangGraph mergeMap mergeGraph).nodes.filter (fun n => n.id == "X")).length = 2 ∧
    (toggleLangGraph mergeMap mergeGraph).links.count { source := "A", target := "X" } = 2 := by
  decide

/-- C3 amended: the language-toggle translation substitutes every node id
and link endpoint through the mapping (identity fallback) with NO
deduplication: node and link counts are preserved exactly, the number of
node entries carrying a translated id `y` equals the number of original
nodes mapping onto `y` (so two collided ids yield two entries, not one),
and likewise the multiplicity of each resulting link equals the number
of original links mapping onto it (collided links are kept, not
collapsed). -/
theorem toggleLang_subst_counts (m : List (String × String)) (g : GraphData)
    (y : String) (e : GraphLink) :
    (toggleLangGraph m g).nodes.length = g.nodes.length ∧
    (toggleLangGraph m g).links.length = g.links.length ∧
    ((toggleLangGraph m g).nodes.filter (fun n => n.id == y)).length
      = (g.nodes.filter (fun n => applyRecord m n.id == y)).length ∧
    ((toggleLangGraph m g).links.filter (fun l => l == e)).length
      = (g.links.filter (fun l =>
          ({ source := applyRecord m l.source
             target := applyRecord m l.target } : GraphLink) == e)).length := by
  refine ⟨by simp [toggleLangGraph], by simp [toggleLangGraph], ?_, ?_⟩
  · simp only [toggleLangGraph]
    rw [List.filter_map, List.length_map]
    rfl
  · simp only [toggleLangGraph]
    rw [List.filter_map, List.length_map]
    rfl

/-! ## C2 — duplicate links under seed/expand sequences -/

/-- Graphs reachable from the empty graph by any sequence of `seed`
(`loadGraphData`) and `expand` (`handleExpandNode`) calls with arbitrary
linked-title lists. -/
inductive SeedExpandReachable : GraphData → Prop
  | empty : SeedExpandReachable { nodes := [], links := [] }
  | seed (t : String) (ls : List String) : SeedExpandReachable (loadGraphData t ls)
  | expand (f : String) (ls : List String) (g : GraphData) :
      SeedExpandReachable g → SeedExpandReachable (handleExpandNode f ls g)

/-- Graphs reachable from the empty graph by `seed`/`expand` sequences in
which every linked-title list is duplicate-free. -/
inductive NodupReachable : GraphData → Prop
  | empty : NodupReachable { nodes := [], links := [] }
  | seed (t : String) (ls : List String) :
      ls.Nodup → NodupReachable (loadGraphData t ls)
  | expand (f : String) (ls : List String) (g : GraphData) :
      NodupReachable g → ls.Nodup → NodupReachable (handleExpandNode f ls g)

/-- C2 counterexample: one `seed` call with the duplicate-containing list
`["B","B"]` — a graph reachable by a seed/expand sequence — already holds
the ordered pair `("A","B")` twice among its links. -/
theorem seed_expand_dup_link_cex :
    SeedExpandReachable (loadGraphData "A" ["B", "B"]) ∧
    (loadGraphData "A" ["B", "B"]).links.count { source := "A", target := "B" } = 2 :=
  ⟨SeedExpandReachable.seed "A" ["B", "B"], by decide⟩

/-- Helper: when the filter computing `nodesToAdd` is nonempty, the link
list of the expanded graph is the old one followed by `safeLinksToAdd`
exactly as computed in `handleExpandNode`. -/
theorem handleExpandNode_links_of_new (f : String) (ls : List String) (g : GraphData)
    (h : ¬ ls.filter (fun i => !((g.nodes.map (fun n => n.id)).contains i)) = []) :
    (handleExpandNode f ls g).links = g.links ++
      ((ls.map (fun targetId => ({ source := f, target := targetId } : GraphLink))).filter
        (fun l => !((g.links.map linkKey).contains (linkKey l)))).filter
        (fun l => ((ls.filter (fun i => !((g.nodes.map (fun n => n.id)).contains i))).map
            (fun i => ({ id := i, val := 1 } : GraphNode))).any (fun n => n.id == l.target)
          || (g.nodes.map (fun n => n.id)).contains l.target) := by
  have hlen : ¬ (((ls.filter (fun i => !((g.nodes.map (fun n => n.id)).contains i))).map
      (fun i => ({ id := i, val := 1 } : GraphNode))).length = 0) := by
    simpa [List.length_eq_zero, List.map_eq_nil_iff] using h
  simp only [handleExpandNode]
  rw [if_neg hlen]

/-- C2 amended: for every sequence of `seed`/`expand` calls whose
linked-title lists are each duplicate-free (as the titles fetched from
the provider are), the resulting graph never contains two links with the
same ordered (source, target) pair.  With duplicate-containing lists the
invariant fails (see the counterexample). -/
theorem no_duplicate_links (g : GraphData) (h : NodupReachable g) :
    g.links.Nodup := by
  induction h with
  | empty => exact List.nodup_nil
  | seed t ls hnd =>
      refine List.Nodup.map ?_ hnd
      intro a b hab
      simpa [GraphLink.mk.injEq] using hab
  | expand f ls g hg hnd ih =>
      by_cases hnew : ls.filter (fun i => !((g.nodes.map (fun n => n.id)).contains i)) = []
      · rw [handleExpandNode_eq_of_no_new f ls g hnew]
        exact ih
      · rw [handleExpandNode_links_of_new f ls g hnew]
        have hmapnd : (ls.map (fun targetId =>
            ({ source := f, target := targetId } : GraphLink))).Nodup := by
          refine List.Nodup.map ?_ hnd
          intro a b hab
          simpa [GraphLink.mk.injEq] using hab
        have hsafe := (hmapnd.filter
          (fun l => !((g.links.map linkKey).contains (linkKey l)))).filter
          (fun l => ((ls.filter (fun i => !((g.nodes.map (fun n => n.id)).contains i))).map
              (fun i => ({ id := i, val := 1 } : GraphNode))).any (fun n => n.id == l.target)
            || (g.nodes.map (fun n => n.id)).contains l.target)
        refine ih.append hsafe ?_
        intro l hl hl'
        have hl₁ : l ∈ (ls.map (fun targetId =>
            ({ source := f, target := targetId } : GraphLink))).filter
            (fun l => !((g.links.map linkKey).contains (linkKey l))) :=
          List.mem_of_mem_filter hl'
        have hkey : ¬ ((g.links.map linkKey).contains (linkKey l) = true) := by
          have := (List.mem_filter.mp hl₁).2
          simpa using this
        exact hkey (by simp [List.mem_map]; exact ⟨l, hl, rfl⟩)

/-- C2 witness: the Einstein seed uses a duplicate-free list, and the
invariant yields that its link list is duplicate-free. -/
theorem no_duplicate_links_witness :
    NodupReachable einsteinGraph ∧ einsteinGraph.links.Nodup :=
  ⟨NodupReachable.seed "Albert Einstein" ["Physics", "Nobel Prize", "Germany"] (by decide),
   no_duplicate_links einsteinGraph
     (NodupReachable.seed "Albert Einstein" ["Physics", "Nobel Prize", "Germany"] (by decide))⟩

/-! ## C4 — no dangling links -/

/-- Graphs reachable through the application's operations: the empty
initial graph, `seed` (`loadGraphData`, which replaces the graph
wholesale), `expand` (`handleExpandNode`, whose source is the currently
selected node's id — a node present in the graph, per §4.1), `relabel`
(`toggleLangGraph`) and `clear` (`resetGraph`). -/
inductive AppReachable : GraphData → Prop
  | empty : AppReachable { nodes := [], links := [] }
  | seed (t : String) (ls : List String) : AppReachable (loadGraphData t ls)
  | expand (f : String) (ls : List String) (g : GraphData) :
      AppReachable g → f ∈ g.nodes.map (fun n => n.id) →
      AppReachable (handleExpandNode f ls g)
  | relabel (m : List (String × String)) (g : GraphData) :
      AppReachable g → AppReachable (toggleLangGraph m g)
  | clear : AppReachable resetGraph

/-- Every link of `g` has both of its endpoints among the node ids. -/
def GraphData.noDangling (g : GraphData) : Prop :=
  ∀ l ∈ g.links, l.source ∈ g.nodeIds ∧ l.target ∈ g.nodeIds

/-- C4: every graph reachable by any sequence of seed, expand, relabel
and clear operations has no dangling links: every link's source and
target id is present in the node set. -/
theorem reachable_no_dangling (g : GraphData) (h : AppReachable g) :
    g.noDangling := by
  induction h with
  | empty => intro l hl; cases hl
  | seed t ls =>
      intro l hl
      simp only [loadGraphData] at hl
      rcases List.mem_map.mp hl with ⟨x, hx, rfl⟩
      constructor
      · simp [GraphData.nodeIds, loadGraphData]
      · simp only [GraphData.nodeIds, loadGraphData, List.map_cons, List.map_map]
        refine List.mem_cons_of_mem _ ?_
        refine List.mem_map.mpr ⟨x, hx, rfl⟩
  | expand f ls g hg hf ih =>
      by_cases hnew : ls.filter (fun i => !((g.nodes.map (fun n => n.id)).contains i)) = []
      · rw [handleExpandNode_eq_of_no_new f ls g hnew]
        exact ih
      · intro l hl
        rw [handleExpandNode_links_of_new f ls g hnew] at hl
        have hids : (handleExpandNode f ls g).nodeIds
            = g.nodeIds ++ (ls.filter
                (fun i => !((g.nodes.map (fun n => n.id)).contains i))).map
                (fun i => (({ id := i, val := 1 } : GraphNode)).id) := by
          rw [GraphData.nodeIds, handleExpandNode_nodes_of_new f ls g hnew,
            List.map_append, List.map_map]
          rfl
        rcases List.mem_append.mp hl with hold | hnewl
        · rcases ih l hold with ⟨hs, ht⟩
          rw [hids]
          exact ⟨List.mem_append.mpr (Or.inl hs), List.mem_append.mpr (Or.inl ht)⟩
        · have hl₁ := List.mem_of_mem_filter hnewl
          have hcond := (List.mem_filter.mp hnewl).2
          rcases List.mem_map.mp (List.mem_of_mem_filter hl₁) with ⟨x, _, rfl⟩
          constructor
          · rw [hids]
            exact List.mem_append.mpr (Or.inl hf)
          · rw [hids]
            rcases Bool.or_eq_true_iff.mp hcond with hany | hcont
            · rcases List.any_eq_true.mp hany with ⟨n, hn, hnid⟩
              rcases List.mem_map.mp hn with ⟨i, hi, rfl⟩
              refine List.mem_append.mpr (Or.inr ?_)
              have : i = x := by simpa using hnid
              subst this
              exact List.mem_map.mpr ⟨i, hi, rfl⟩
            · refine List.mem_append.mpr (Or.inl ?_)
              simpa [GraphData.nodeIds] using hcont
  | relabel m g hg ih =>
      intro l hl
      simp only [toggleLangGraph] at hl
      rcases List.mem_map.mp hl with ⟨l₀, hl₀, rfl⟩
      rcases ih l₀ hl₀ with ⟨hs, ht⟩
      have hids : (toggleLangGraph m g).nodeIds
          = g.nodeIds.map (applyRecord m) := by
        simp only [GraphData.nodeIds, toggleLangGraph, List.map_map]
        rfl
      rw [hids]
      exact ⟨List.mem_map.mpr ⟨l₀.source, hs, rfl⟩,
        List.mem_map.mpr ⟨l₀.target, ht, rfl⟩⟩
  | clear => intro l hl; cases hl

/-- C4 witness: expanding `"Physics"` with one fresh title on the
Einstein seed is reachable, and the resulting graph has no dangling
links. -/
theorem reachable_no_dangling_witness :
    AppReachable (handleExpandNode "Physics" ["Quantum Mechanics"] einsteinGraph) ∧
    (handleExpandNode "Physics" ["Quantum Mechanics"] einsteinGraph).noDangling :=
  ⟨AppReachable.expand "Physics" ["Quantum Mechanics"] einsteinGraph
     (AppReachable.seed "Albert Einstein" ["Physics", "Nobel Prize", "Germany"]) (by decide),
   reachable_no_dangling _
     (AppReachable.expand "Physics" ["Quantum Mechanics"] einsteinGraph
       (AppReachable.seed "Albert Einstein" ["Physics", "Nobel Prize", "Germany"]) (by decide))⟩

/-! ## C7 — positions across expand + re-initialization -/

/-- The effect of a drag gesture on the simulator's working copy:
`dragstarted`/`dragged` in `ForceGraph.tsx` set `fx`/`fy` to the pointer
position and the tick loop writes `x`/`y` accordingly.  This mutates only
the simulation's node copies, never the store. -/
def dragNodeTo (nodeId : String) (px py : Int) (sim : List GraphNode) : List GraphNode :=
  sim.map (fun n =>
    if n.id == nodeId then { n with x := some px, y := some py, fx := some px, fy := some py }
    else n)

/-- A prior simulation state over the Einstein seed in which the user has
dragged the node `"Physics"` to position (5, 7) and it is pinned there. -/
def prevSimPhysics : List GraphNode :=
  dragNodeTo "Physics" 5 7 (initGraphNodes einsteinGraph)

/-- C7 counterexample: in the prior simulation state the pre-existing
node `"Physics"` has coordinate `x = 5` and pin `fx = 5`; after
`expand("Physics", ["Quantum Mechanics"])` and re-initialization the new
simulation snapshot — rebuilt from the store, which carries no
coordinates — gives `"Physics"` an unset position and no pin, so the
prior coordinates and pin state are NOT kept. -/
theorem expand_reinit_loses_position_cex :
    ((prevSimPhysics.find? (fun n => n.id == "Physics")).map (fun n => (n.x, n.fx))
        = some (some 5, some 5)) ∧
    (((initGraphNodes (handleExpandNode "Physics" ["Quantum Mechanics"] einsteinGraph)).find?
        (fun n => n.id == "Physics")).map (fun n => (n.x, n.fx)) = some (none, none)) := by
  decide

/-- Helper: the store of any reachable graph never carries coordinates,
velocities or pin state — d3 only ever mutates the simulator's copies. -/
theorem reachable_nodes_unpositioned (g : GraphData) (h : AppReachable g) :
    ∀ n ∈ g.nodes, n.x = none ∧ n.y = none ∧ n.vx = none ∧ n.vy = none ∧
      n.fx = none ∧ n.fy = none := by
  induction h with
  | empty => intro n hn; cases hn
  | seed t ls =>
      intro n hn
      simp only [loadGraphData] at hn
      rcases List.mem_cons.mp hn with rfl | hmem
      · exact ⟨rfl, rfl, rfl, rfl, rfl, rfl⟩
      · rcases List.mem_map.mp hmem with ⟨x, _, rfl⟩
        exact ⟨rfl, rfl, rfl, rfl, rfl, rfl⟩
  | expand f ls g hg hf ih =>
      by_cases hnew : ls.filter (fun i => !((g.nodes.map (fun n => n.id)).contains i)) = []
      · rw [handleExpandNode_eq_of_no_new f ls g hnew]
        exact ih
      · rw [handleExpandNode_nodes_of_new f ls g hnew]
        intro n hn
        rcases List.mem_append.mp hn with hold | hnewn
        · exact ih n hold
        · rcases List.mem_map.mp hnewn with ⟨x, _, rfl⟩
          exact ⟨rfl, rfl, rfl, rfl, rfl, rfl⟩
  | relabel m g hg ih =>
      intro n hn
      simp only [toggleLangGraph] at hn
      rcases List.mem_map.mp hn with ⟨n₀, h₀, rfl⟩
      exact ⟨rfl, rfl, rfl, rfl, (ih n₀ h₀).2.2.2.2.1, (ih n₀ h₀).2.2.2.2.2⟩
  | clear => intro n hn; cases hn

/-- C7 amended: after `expand` and the subsequent simulator
re-initialization, the snapshot is rebuilt solely from the store: the
pre-existing store entries are kept verbatim (ids and weights untouched),
but since the store never carries layout state, EVERY node of the new
simulation — pre-existing ids included — starts with unset coordinates
and no pin; prior simulated positions and pins are not carried over. -/
theorem expand_reinit_unsets_positions (g : GraphData) (f : String) (ls : List String)
    (h : AppReachable g) :
    (handleExpandNode f ls g).nodes.take g.nodes.length = g.nodes ∧
    ∀ n ∈ initGraphNodes (handleExpandNode f ls g),
      n.x = none ∧ n.y = none ∧ n.fx = none ∧ n.fy = none := by
  have hinit : ∀ d : GraphData, initGraphNodes d = d.nodes := by
    intro d
    have hfun : (fun (n : GraphNode) => ({ n with } : GraphNode)) = fun n => n := by
      funext n; rfl
    rw [initGraphNodes, hfun, List.map_id']
  constructor
  · by_cases hnew : ls.filter (fun i => !((g.nodes.map (fun n => n.id)).contains i)) = []
    · rw [handleExpandNode_eq_of_no_new f ls g hnew, List.take_length]
    · rw [handleExpandNode_nodes_of_new f ls g hnew, List.take_left]
  · intro n hn
    rw [hinit] at hn
    by_cases hnew : ls.filter (fun i => !((g.nodes.map (fun n => n.id)).contains i)) = []
    · rw [handleExpandNode_eq_of_no_new f ls g hnew] at hn
      rcases reachable_nodes_unpositioned g h n hn with ⟨h₁, h₂, _, _, h₅, h₆⟩
      exact ⟨h₁, h₂, h₅, h₆⟩
    · rw [handleExpandNode_nodes_of_new f ls g hnew] at hn
      rcases List.mem_append.mp hn with hold | hnewn
      · rcases reachable_nodes_unpositioned g h n hold with ⟨h₁, h₂, _, _, h₅, h₆⟩
        exact ⟨h₁, h₂, h₅, h₆⟩
      · rcases List.mem_map.mp hnewn with ⟨x, _, rfl⟩
        exact ⟨rfl, rfl, rfl, rfl⟩

/-- C7 amended witness: the Einstein seed is reachable; expanding
`"Physics"` keeps the four prior store entries verbatim and the re-built
simulation snapshot has every position and pin unset. -/
theorem expand_reinit_unsets_positions_witness :
    AppReachable einsteinGraph ∧
    ((handleExpandNode "Physics" ["Quantum Mechanics"] einsteinGraph).nodes.take
        einsteinGraph.nodes.length = einsteinGraph.nodes ∧
      ∀ n ∈ initGraphNodes (handleExpandNode "Physics" ["Quantum Mechanics"] einsteinGraph),
        n.x = none ∧ n.y = none ∧ n.fx = none ∧ n.fy = none) :=
  ⟨AppReachable.seed "Albert Einstein" ["Physics", "Nobel Prize", "Germany"],
   expand_reinit_unsets_positions einsteinGraph "Physics" ["Quantum Mechanics"]
     (AppReachable.seed "Albert Einstein" ["Physics", "Nobel Prize", "Germany"])⟩

/-! ## C9 — batched translations: bounded chunks and fault tolerance -/

/-- The chunking loop of `getBatchTranslations` in `wikiService.ts`:
`for (let i = 0; i < uniqueTitles.length; i += chunkSize)` with
`chunk = uniqueTitles.slice(i, i + chunkSize)`. -/

def chunked (k : Nat) (l : List String) : List (List String) :=
  match l with
  | [] => []
  | x :: xs => (x :: xs.take (k - 1)) :: chunked k (xs.drop (k - 1))
termination_by l.length
decreasing_by
  simp only [List.length_drop, List.length_cons]
  omega

/-- Helper for `Array.from(new Set(titles))`: keeps the first occurrence
of each title, in order. -/
def dedupFirstAux : List String → List String → List String
  | [], _ => []
  | x :: xs, seen =>
      if seen.contains x then dedupFirstAux xs seen
      else x :: dedupFirstAux xs (x :: seen)

/-- `const uniqueTitles = Array.from(new Set(titles))`. -/
def dedupFirst (l : List String) : List String :=
  dedupFirstAux l []

/-- The record assignment `translations[page.title] = page.langlinks[0]`
on an association-list representation of the `Record`: overwrites an
existing entry for the key, otherwise appends. -/
def recordSet (m : List (String × String)) (k v : String) : List (String × String) :=
  if m.any (fun q => q.1 == k) then m.map (fun q => if q.1 == k then (k, v) else q)
  else m ++ [(k, v)]

/-- Merging one successful response page list into the accumulated
translations record (`Object.values(pages).forEach(...)`). -/
def insertAll (m : List (String × String)) (ps : List (String × String)) :
    List (String × String) :=
  ps.foldl (fun acc q => recordSet acc q.1 q.2) m

/-- `getBatchTranslations` of `wikiService.ts`.  The network interaction
of one batch is abstracted as `fetchChunk`: `some pairs` when the
langlinks request succeeds (one pair per page carrying a translation),
`none` when it throws — the `catch` only logs and the loop continues
with the next chunk. -/
def getBatchTranslations (titles : List String)
    (fetchChunk : List String → Option (List (String × String))) :
    List (String × String) :=
  if titles.length = 0 then []
  else (chunked 50 (dedupFirst titles)).foldl
    (fun acc c =>
      match fetchChunk c with
      | some ps => insertAll acc ps
      | none => acc) []

/-- Helper: every chunk produced by `chunked k` (for `k ≥ 1`) has at
most `k` elements. -/
theorem chunked_length_le (k : Nat) (hk : 1 ≤ k) :
    ∀ (l : List String), ∀ c ∈ chunked k l, c.length ≤ k := by
  have key : ∀ (n : Nat) (l : List String), l.length ≤ n →
      ∀ c ∈ chunked k l, c.length ≤ k := by
    intro n
    induction n with
    | zero =>
        intro l hl c hc
        have : l = [] := List.eq_nil_of_length_eq_zero (Nat.le_zero.mp hl)
        subst this
        rw [chunked] at hc
        cases hc
    | succ n ih =>
        intro l hl c hc
        match l with
        | [] => rw [chunked] at hc; cases hc
        | x :: xs =>
            rw [chunked] at hc
            rcases List.mem_cons.mp hc with rfl | hc'
            · simp only [List.length_cons, List.length_take]
              omega
            · refine ih (xs.drop (k - 1)) ?_ c hc'
              simp only [List.length_drop]
              simp only [List.length_cons] at hl
              omega
  intro l
  exact key l.length l le_rfl

/-- Helper: folding the per-chunk step over all chunks equals folding
the successful responses only — failed batches contribute nothing and
do not stop the loop. -/
theorem foldl_fetch_eq_filterMap
    (fetchChunk : List String → Option (List (String × String))) :
    ∀ (cs : List (List String)) (acc : List (String × String)),
      cs.foldl (fun acc c =>
          match fetchChunk c with
          | some ps => insertAll acc ps
          | none => acc) acc
        = (cs.filterMap fetchChunk).foldl insertAll acc := by
  intro cs
  induction cs with
  | nil => intro acc; rfl
  | cons c cs ih =>
      intro acc
      cases hfc : fetchChunk c <;>
        simp [List.filterMap_cons, hfc, ih, List.foldl_cons]

/-- Helper: `getBatchTranslations` equals the merge of exactly the
successful batches' responses, in order. -/
theorem getBatchTranslations_eq (titles : List String)
    (fetchChunk : List String → Option (List (String × String))) :
    getBatchTranslations titles fetchChunk
      = ((chunked 50 (dedupFirst titles)).filterMap fetchChunk).foldl insertAll [] := by
  rw [getBatchTranslations]
  by_cases h0 : titles.length = 0
  · rw [if_pos h0]
    have : titles = [] := List.eq_nil_of_length_eq_zero h0
    subst this
    simp [dedupFirst, dedupFirstAux, chunked]
  · rw [if_neg h0, foldl_fetch_eq_filterMap]

/-- A key is present in the accumulated translations record. -/
def keyMem (m : List (String × String)) (k : String) : Bool :=
  m.any (fun q => q.1 == k)

/-- Helper: after `recordSet m k v` the key `k` is present. -/
theorem keyMem_recordSet_self (m : List (String × String)) (k v : String) :
    keyMem (recordSet m k v) k = true := by
  rw [recordSet]
  by_cases h : m.any (fun q => q.1 == k) = true
  · rw [if_pos h]
    rcases List.any_eq_true.mp h with ⟨q, hq, hqk⟩
    refine List.any_eq_true.mpr ⟨(k, v), ?_, by simp⟩
    refine List.mem_map.mpr ⟨q, hq, ?_⟩
    rw [if_pos hqk]
  · rw [if_neg h]
    exact List.any_eq_true.mpr ⟨(k, v), List.mem_append.mpr (Or.inr (by simp)), by simp⟩

/-- Helper: `recordSet` never removes a present key. -/
theorem keyMem_recordSet_mono (m : List (String × String)) (k v k' : String)
    (h : keyMem m k' = true) : keyMem (recordSet m k v) k' = true := by
  rw [recordSet]
  rcases List.any_eq_true.mp h with ⟨q, hq, hqk⟩
  by_cases hany : m.any (fun q => q.1 == k) = true
  · rw [if_pos hany]
    by_cases hqk2 : q.1 == k
    · refine List.any_eq_true.mpr ⟨(k, v), List.mem_map.mpr ⟨q, hq, by rw [if_pos hqk2]⟩, ?_⟩
      have h1 : q.1 = k := by simpa using hqk2
      have h2 : q.1 = k' := by simpa using hqk
      simp [← h1, h2]
    · refine List.any_eq_true.mpr ⟨q, List.mem_map.mpr ⟨q, hq, by rw [if_neg hqk2]⟩, hqk⟩
  · rw [if_neg hany]
    exact List.any_eq_true.mpr ⟨q, List.mem_append.mpr (Or.inl hq), hqk⟩

/-- Helper: merging a response list never removes a present key. -/
theorem keyMem_insertAll_mono (ps : List (String × String)) :
    ∀ (m : List (String × String)) (k' : String), keyMem m k' = true →
      keyMem (insertAll m ps) k' = true := by
  induction ps with
  | nil => intro m k' h; exact h
  | cons q qs ih =>
      intro m k' h
      exact ih (recordSet m q.1 q.2) k' (keyMem_recordSet_mono m q.1 q.2 k' h)

/-- Helper: merging a response list makes each of its keys present. -/
theorem keyMem_insertAll_of_mem (ps : List (String × String)) :
    ∀ (m : List (String × String)) (p : String × String), p ∈ ps →
      keyMem (insertAll m ps) p.1 = true := by
  induction ps with
  | nil => intro m p hp; cases hp
  | cons q qs ih =>
      intro m p hp
      rcases List.mem_cons.mp hp with rfl | hp'
      · exact keyMem_insertAll_mono qs (recordSet m p.1 p.2) p.1
          (keyMem_recordSet_self m p.1 p.2)
      · exact ih (recordSet m q.1 q.2) p hp'

/-- Helper: the batch loop never removes a present key. -/
theorem keyMem_fold_mono
    (fetchChunk : List String → Option (List (String × String))) :
    ∀ (cs : List (List String)) (acc : List (String × String)) (k' : String),
      keyMem acc k' = true →
      keyMem (cs.foldl (fun acc c =>
        match fetchChunk c with
        | some ps => insertAll acc ps
        | none => acc) acc) k' = true := by
  intro cs
  induction cs with
  | nil => intro acc k' h; exact h
  | cons c cs ih =>
      intro acc k' h
      rw [List.foldl_cons]
      cases hfc : fetchChunk c
      · exact ih acc k' h
      · exact ih _ k' (keyMem_insertAll_mono _ acc k' h)

/-- Helper: a translation delivered by any successful batch is present
in the final record, regardless of other batches failing. -/
theorem keyMem_fold_of_success
    (fetchChunk : List String → Option (List (String × String))) :
    ∀ (cs : List (List String)) (acc : List (String × String))
      (c : List String) (ps : List (String × String)) (p : String × String),
      c ∈ cs → fetchChunk c = some ps → p ∈ ps →
      keyMem (cs.foldl (fun acc c =>
        match fetchChunk c with
        | some ps => insertAll acc ps
        | none => acc) acc) p.1 = true := by
  intro cs
  induction cs with
  | nil => intro acc c ps p hc; cases hc
  | cons c₀ cs ih =>
      intro acc c ps p hc hf hp
      rw [List.foldl_cons]
      rcases List.mem_cons.mp hc with rfl | hc'
      · rw [hf]
        exact keyMem_fold_mono fetchChunk cs _ p.1 (keyMem_insertAll_of_mem ps acc p hp)
      · cases hfc : fetchChunk c₀ <;> exact ih _ c ps p hc' hf hp

/-- C9: `getBatchTranslations` processes the deduplicated titles in
chunks of at most 50 identifiers, and a failed batch does not abort the
remaining ones: the result equals the merge of exactly the successful
batches, and every translation pair returned by a successful batch has
its title present in the returned mapping. -/
theorem batch_bounded_fault_tolerant (titles : List String)
    (fetchChunk : List String → Option (List (String × String)))
    (c : List String) (ps : List (String × String)) (p : String × String)
    (hc : c ∈ chunked 50 (dedupFirst titles))
    (hf : fetchChunk c = some ps) (hp : p ∈ ps) :
    c.length ≤ 50 ∧
    getBatchTranslations titles fetchChunk
      = ((chunked 50 (dedupFirst titles)).filterMap fetchChunk).foldl insertAll [] ∧
    keyMem (getBatchTranslations titles fetchChunk) p.1 = true := by
  have h0 : ¬ titles.length = 0 := by
    intro h0
    have : titles = [] := List.eq_nil_of_length_eq_zero h0
    subst this
    rw [dedupFirst] at hc
    rw [dedupFirstAux] at hc
    rw [chunked] at hc
    cases hc
  refine ⟨chunked_length_le 50 (by norm_num) (dedupFirst titles) c hc,
    getBatchTranslations_eq titles fetchChunk, ?_⟩
  rw [getBatchTranslations, if_neg h0]
  exact keyMem_fold_of_success fetchChunk _ [] c ps p hc hf hp

/-- A concrete provider for the C9 witness: fails on any chunk
containing `"bad"`, otherwise translates `t` to `t ++ "T"`. -/
def sampleFetch (c : List String) : Option (List (String × String)) :=
  if c.contains "bad" then none else some (c.map (fun t => (t, t ++ "T")))

/-- C9 witness: on `["a","b","a"]` the single deduplicated chunk
`["a","b"]` succeeds under `sampleFetch` and its translation of `"a"`
lands in the result. -/
theorem batch_bounded_fault_tolerant_witness :
    (["a", "b"] ∈ chunked 50 (dedupFirst ["a", "b", "a"])) ∧
    sampleFetch ["a", "b"] = some [("a", "aT"), ("b", "bT")] ∧
    (("a", "aT") : String × String) ∈ [("a", "aT"), ("b", "bT")] ∧
    ((["a", "b"] : List String).length ≤ 50 ∧
      getBatchTranslations ["a", "b", "a"] sampleFetch
        = ((chunked 50 (dedupFirst ["a", "b", "a"])).filterMap sampleFetch).foldl
            insertAll [] ∧
      keyMem (getBatchTranslations ["a", "b", "a"] sampleFetch) "a" = true) := by
  have hc : (["a", "b"] ∈ chunked 50 (dedupFirst ["a", "b", "a"])) := by
    simp [chunked, dedupFirst, dedupFirstAux]
  exact ⟨hc, by decide, by decide,
    batch_bounded_fault_tolerant ["a", "b", "a"] sampleFetch ["a", "b"]
      [("a", "aT"), ("b", "bT")] ("a", "aT") hc (by decide) (by decide)⟩
